import Mathlib

/-!
Shallow embedding of `src/pika/codec/decode.py` (AMQP 0-9-1 field-value
decoder) together with proofs about it.

Modelling conventions, all fixed by the source:
* a buffer is a `List Nat` of byte values; `value[a:b]` becomes
  `(value.drop a).take (b - a)` (Python slices silently truncate);
* Python's `struct.error` and `IndexError`, both raised by reading past
  the end of a buffer, are modelled as `DecodeError.underflow`;
* the `ValueError` raised by `_embedded_value` carries the offending tag
  byte (the source formats `value[0]` into the message), the one raised
  by `by_type` carries the buffer (the source formats `value`);
* `unicode(...)` is modelled as the identity on the raw bytes (the text
  validation policy is left open by the source);
* `time.gmtime(n)` is not interpreted: the raw seconds count is kept;
* IEEE-754 floats are kept as their raw 4-byte big-endian bit pattern.
-/

namespace Pika

/-- The closed variant of decoded values. -/
inductive Value where
  | null
  | bool (b : Bool)
  | dec (q : ℚ)
  | f32 (bits : Nat)
  | i32 (n : Int)
  | i64 (n : Int)
  | u16 (n : Nat)
  | oct (n : Nat)
  | str (bytes : List Nat)
  | ts (seconds : Nat)
  | arr (xs : List Value)
  | table (d : List Nat → Option Value)

/-- A Python `dict` keyed by byte strings, modelled by its lookup function. -/
abbrev Dict := List Nat → Option Value

/-- Source `dict()`. -/
def dempty : Dict := fun _ => none

/-- Source `data[key] = result`. -/
def dinsert (d : Dict) (k : List Nat) (v : Value) : Dict :=
  fun k2 => if k2 = k then some v else d k2

/-- The exceptions the source can raise while decoding. -/
inductive DecodeError where
  | underflow
  | unknownType (b : Nat)
  | unknownDataType (v : List Nat)
  deriving DecidableEq

/-- Big-endian value of a byte list, as read by `struct.unpack('>I')` and
friends. -/
def be (bs : List Nat) : Nat := bs.foldl (fun a b => 256 * a + b) 0

/-- Two's-complement reinterpretation used by the signed formats `'>l'`
and `'>q'`. -/
def toSigned (w n : Nat) : Int :=
  if n < 2 ^ (w - 1) then (n : Int) else (n : Int) - 2 ^ w

abbrev DResult := Except DecodeError (Nat × Value)

/-- Source `bit(value, position)`: test one bit of the first byte, consuming 0
bytes. -/
def bit (value : List Nat) (position : Nat) : DResult :=
  match value with
  | [] => .error .underflow
  | b :: _ => .ok (0, .bool ((b &&& (1 <<< position)) != 0))

/-- Source `boolean(value)`: 1 byte, nonzero is true. -/
def boolean (value : List Nat) : DResult :=
  match value with
  | [] => .error .underflow
  | b :: _ => .ok (1, .bool (b != 0))

/-- Source `decimal(value)`: 1-byte scale, 4-byte big-endian mantissa,
`Decimal(raw) * Decimal(10) ** -decimals` computed exactly in `ℚ`. -/
def decimal (value : List Nat) : DResult :=
  match value with
  | [] => .error .underflow
  | decimals :: rest =>
    if 4 ≤ rest.length then
      .ok (5, .dec ((be (rest.take 4) : ℚ) * (10 : ℚ) ^ (-(decimals : ℤ))))
    else .error .underflow

/-- Source `floating_point(value)`: `unpack_from('>f', value)`; the 4-byte bit
pattern is kept uninterpreted. -/
def floating_point (value : List Nat) : DResult :=
  if 4 ≤ value.length then .ok (4, .f32 (be (value.take 4))) else .error .underflow

/-- Source `long_int(value)`: `unpack('>l', value[0:4])`. -/
def long_int (value : List Nat) : DResult :=
  if 4 ≤ value.length then .ok (4, .i32 (toSigned 32 (be (value.take 4))))
  else .error .underflow

/-- Source `long_long_int(value)`: `unpack('>q', value[0:8])`. -/
def long_long_int (value : List Nat) : DResult :=
  if 8 ≤ value.length then .ok (8, .i64 (toSigned 64 (be (value.take 8))))
  else .error .underflow

/-- Source `long_string(value)`: 4-byte big-endian length, then
`value[4:length + 4]` — a Python slice, which silently truncates when the
buffer is short. -/
def long_string (value : List Nat) : DResult :=
  if 4 ≤ value.length then
    let length := be (value.take 4)
    .ok (length + 4, .str ((value.drop 4).take length))
  else .error .underflow

/-- Source `octet(value)`: one unsigned byte. -/
def octet (value : List Nat) : DResult :=
  match value with
  | [] => .error .underflow
  | b :: _ => .ok (1, .oct b)

/-- Source `short_int(value)`: `unpack_from('>H', value[0:2])`. -/
def short_int (value : List Nat) : DResult :=
  if 2 ≤ value.length then .ok (2, .u16 (be (value.take 2))) else .error .underflow

/-- Source `short_string(value)`: 1-byte length, then `value[1:length + 1]` — a
Python slice, which silently truncates when the buffer is short. -/
def short_string (value : List Nat) : DResult :=
  match value with
  | [] => .error .underflow
  | length :: rest => .ok (length + 1, .str (rest.take length))

/-- Source `timestamp(value)`: `unpack('>Q', value[0:8])`, seconds kept raw. -/
def timestamp (value : List Nat) : DResult :=
  if 8 ≤ value.length then .ok (8, .ts (be (value.take 8))) else .error .underflow

mutual

/-- Source `field_array(value)`: 4-byte big-endian region length, then the
`while offset < field_array_end` loop.  The loop is rendered with the
suffix `value[offset:]` and the count `consumed = offset - 4` as state. -/
def field_array (value : List Nat) : Except DecodeError (Nat × List Value) :=
  if _h : 4 ≤ value.length then
    field_array_loop (value.drop 4) 0 (be (value.take 4)) []
  else .error .underflow
termination_by (2 * value.length + 1, 0)
decreasing_by
  simp only [Prod.lex_def, List.length_drop]
  omega

/-- The body of `field_array`'s loop: `consumed, result =
_embedded_value(value[offset:]); offset += consumed + 1;
data.append(result)`, returning `offset, data` (that is,
`4 + consumed, data`) when `offset < field_array_end` fails. -/
def field_array_loop (rest : List Nat) (consumed length : Nat) (data : List Value) :
    Except DecodeError (Nat × List Value) :=
  if _h : consumed < length then
    match embedded_value rest with
    | .error e => .error e
    | .ok (c, result) =>
      field_array_loop (rest.drop (c + 1)) (consumed + c + 1) length (data ++ [result])
  else .ok (4 + consumed, data)
termination_by (2 * rest.length + 2, length - consumed)
decreasing_by
  · simp only [Prod.lex_def, List.length_drop]
    omega
  · simp only [Prod.lex_def, List.length_drop]
    omega

/-- Source `field_table(value)`: 4-byte big-endian region length, then the
`while offset < field_table_end` loop. -/
def field_table (value : List Nat) : Except DecodeError (Nat × Dict) :=
  if _h : 4 ≤ value.length then
    field_table_loop (value.drop 4) 0 (be (value.take 4)) dempty
  else .error .underflow
termination_by (2 * value.length + 1, 0)
decreasing_by
  simp only [Prod.lex_def, List.length_drop]
  omega

/-- The body of `field_table`'s loop: read a 1-byte key length (an
`unpack_from` that underflows on an empty suffix), slice the key, decode
one embedded value, store `data[key] = result`; on exit return
`field_table_end, data` — that is, `4 + length` regardless of how far
`offset` actually advanced. -/
def field_table_loop (rest : List Nat) (consumed length : Nat) (data : Dict) :
    Except DecodeError (Nat × Dict) :=
  if _h : consumed < length then
    match rest with
    | [] => .error .underflow
    | key_length :: rest1 =>
      match embedded_value (rest1.drop key_length) with
      | .error e => .error e
      | .ok (c, result) =>
        field_table_loop ((rest1.drop key_length).drop (c + 1))
          (consumed + 1 + key_length + c + 1) length
          (dinsert data (rest1.take key_length) result)
  else .ok (4 + length, data)
termination_by (2 * rest.length + 2, 0)
decreasing_by
  · simp only [Prod.lex_def, List.length_drop, List.length_cons]
    omega
  · simp only [Prod.lex_def, List.length_drop, List.length_cons]
    omega

/-- Source `_embedded_value(value)`: empty buffer and NUL give `(0, None)`; a
recognized tag byte dispatches on `value[1:]`; anything else raises
`ValueError` carrying the tag byte.  Tag codes: `A` 65, `D` 68, `f` 102,
`F` 70, `I` 73, `L` 76, `t` 116, `T` 84, `s` 115, `S` 83, `U` 85. -/
def embedded_value (value : List Nat) : DResult :=
  match value with
  | [] => .ok (0, .null)
  | b :: w =>
    if b = 65 then
      match field_array w with
      | .ok (c, xs) => .ok (c, .arr xs)
      | .error e => .error e
    else if b = 68 then decimal w
    else if b = 102 then floating_point w
    else if b = 70 then
      match field_table w with
      | .ok (c, d) => .ok (c, .table d)
      | .error e => .error e
    else if b = 73 then long_int w
    else if b = 76 then long_long_int w
    else if b = 116 then boolean w
    else if b = 84 then timestamp w
    else if b = 115 then short_string w
    else if b = 83 then long_string w
    else if b = 85 then short_int w
    else if b = 0 then .ok (0, .null)
    else .error (.unknownType b)
termination_by (2 * value.length, 0)
decreasing_by
  · simp only [Prod.lex_def, List.length_cons]
    omega
  · simp only [Prod.lex_def, List.length_cons]
    omega

end

/-- Source `by_type(value, data_type, offset=0)`: static dispatch over the fixed
set of symbolic type names; any other name raises `ValueError` carrying
the buffer. -/
def by_type (value : List Nat) (data_type : String) (offset : Nat := 0) : DResult :=
  if data_type = "bit" then bit value offset
  else if data_type = "boolean" then boolean value
  else if data_type = "long" then long_int value
  else if data_type = "longlong" then long_long_int value
  else if data_type = "longstr" then long_string value
  else if data_type = "octet" then octet value
  else if data_type = "short" then short_int value
  else if data_type = "shortstr" then short_string value
  else if data_type = "table" then
    match field_table value with
    | .ok (c, d) => .ok (c, .table d)
    | .error e => .error e
  else if data_type = "timestamp" then timestamp value
  else .error (.unknownDataType value)

/-- A wire-format region that is a well-formed sequence of tagged
self-describing values: the region splits into consecutive element
encodings, each of which the self-describing decoder accepts while
consuming exactly its own bytes (its extent less the tag byte). -/
inductive ElemsOk : List Nat → List Value → Prop
  | nil : ElemsOk [] []
  | cons (e rest : List Nat) (v : Value) (vs : List Value) :
      e ≠ [] →
      embedded_value (e ++ rest) = .ok (e.length - 1, v) →
      ElemsOk rest vs →
      ElemsOk (e ++ rest) (v :: vs)

/-- A wire-format region that is a well-formed sequence of field-table
entries: a 1-byte key length, that many key bytes, then one well-formed
tagged self-describing value, the entries tiling the region exactly. -/
inductive EntriesOk : List Nat → List (List Nat × Value) → Prop
  | nil : EntriesOk [] []
  | cons (key_length : Nat) (key e rest : List Nat) (v : Value)
      (ps : List (List Nat × Value)) :
      key.length = key_length →
      key_length < 256 →
      e ≠ [] →
      embedded_value (e ++ rest) = .ok (e.length - 1, v) →
      EntriesOk rest ps →
      EntriesOk (key_length :: (key ++ (e ++ rest))) ((key, v) :: ps)

/-- Inserting a list of pairs into a dict in order, a later duplicate key
overwriting the earlier value. -/
def insertAll (d : Dict) (ps : List (List Nat × Value)) : Dict :=
  ps.foldl (fun d p => dinsert d p.1 p.2) d

/-! ## Theorems -/

theorem field_array_loop_ok {region : List Nat} {vs : List Value}
    (h : ElemsOk region vs) :
    ∀ consumed length data, consumed + region.length = length →
      field_array_loop region consumed length data = .ok (4 + length, data ++ vs) := by
  induction h with
  | nil =>
    intro consumed length data hlen
    rw [field_array_loop]
    simp only [List.length_nil, Nat.add_zero] at hlen
    subst hlen
    simp
  | cons e rest v vs hne hdec hrest ih =>
    intro consumed length data hlen
    have hev : 1 ≤ e.length := List.length_pos.mpr hne
    have hguard : consumed < length := by
      simp only [List.length_append] at hlen; omega
    rw [field_array_loop, dif_pos hguard, hdec]
    have hdrop : (e ++ rest).drop (e.length - 1 + 1) = rest := by
      have h1 : e.length - 1 + 1 = e.length := by omega
      rw [h1, List.drop_left]
    simp only [hdrop]
    have harith : consumed + (e.length - 1) + 1 = consumed + e.length := by omega
    rw [harith, ih (consumed + e.length) length (data ++ [v])
      (by simp only [List.length_append] at hlen ⊢; omega)]
    simp

theorem field_table_loop_ok {region : List Nat} {ps : List (List Nat × Value)}
    (h : EntriesOk region ps) :
    ∀ consumed length data, consumed + region.length = length →
      field_table_loop region consumed length data = .ok (4 + length, insertAll data ps) := by
  induction h with
  | nil =>
    intro consumed length data hlen
    rw [field_table_loop]
    simp only [List.length_nil, Nat.add_zero] at hlen
    subst hlen
    simp [insertAll]
  | cons key_length key e rest v ps hkey hk256 hne hdec hrest ih =>
    intro consumed length data hlen
    have hev : 1 ≤ e.length := List.length_pos.mpr hne
    have hguard : consumed < length := by
      simp only [List.length_cons, List.length_append] at hlen; omega
    rw [field_table_loop, dif_pos hguard]
    have htake : (key ++ (e ++ rest)).take key_length = key := by
      rw [← hkey, List.take_left]
    have hdropk : (key ++ (e ++ rest)).drop key_length = e ++ rest := by
      rw [← hkey, List.drop_left]
    simp only [htake, hdropk, hdec]
    have hdrop : (e ++ rest).drop (e.length - 1 + 1) = rest := by
      have h1 : e.length - 1 + 1 = e.length := by omega
      rw [h1, List.drop_left]
    simp only [hdrop]
    have harith : consumed + 1 + key_length + (e.length - 1) + 1
        = consumed + (1 + key_length + e.length) := by omega
    rw [harith, ih (consumed + (1 + key_length + e.length)) length
      (dinsert data key v)
      (by simp only [List.length_cons, List.length_append] at hlen ⊢; omega)]
    simp [insertAll]

theorem field_table_loop_count_aux (n : Nat) :
    ∀ (rest : List Nat) consumed length (data : Dict) (c : Nat) (d : Dict),
      rest.length ≤ n →
      field_table_loop rest consumed length data = .ok (c, d) → c = 4 + length := by
  induction n with
  | zero =>
    intro rest consumed length data c d hn h
    have hrest : rest = [] := List.eq_nil_of_length_eq_zero (by omega)
    subst hrest
    rw [field_table_loop.eq_def] at h
    by_cases hg : consumed < length
    · rw [dif_pos hg] at h
      simp at h
    · rw [dif_neg hg] at h
      simp only [Except.ok.injEq, Prod.mk.injEq] at h
      omega
  | succ n ih =>
    intro rest consumed length data c d hn h
    rw [field_table_loop.eq_def] at h
    by_cases hg : consumed < length
    · rw [dif_pos hg] at h
      cases rest with
      | nil => simp at h
      | cons key_length rest1 =>
        cases hev : embedded_value (rest1.drop key_length) with
        | error e => simp [hev] at h
        | ok p =>
          obtain ⟨cv, result⟩ := p
          simp only [hev] at h
          refine ih _ _ _ _ _ _ ?_ h
          simp only [List.length_cons] at hn
          simp only [List.length_drop]
          omega
    · rw [dif_neg hg] at h
      simp only [Except.ok.injEq, Prod.mk.injEq] at h
      omega

theorem field_array_loop_step (rest : List Nat) (consumed length : Nat)
    (data : List Value) (c : Nat) (result : Value)
    (hg : consumed < length) (hev : embedded_value rest = .ok (c, result)) :
    field_array_loop rest consumed length data
      = field_array_loop (rest.drop (c + 1)) (consumed + c + 1) length
          (data ++ [result]) := by
  rw [field_array_loop.eq_def, dif_pos hg, hev]

theorem field_array_loop_exit (rest : List Nat) (consumed length : Nat)
    (data : List Value) (hg : ¬ consumed < length) :
    field_array_loop rest consumed length data = .ok (4 + consumed, data) := by
  rw [field_array_loop.eq_def, dif_neg hg]

theorem field_table_loop_step (key_length : Nat) (rest1 : List Nat)
    (consumed length : Nat) (data : Dict) (c : Nat) (result : Value)
    (hg : consumed < length)
    (hev : embedded_value (rest1.drop key_length) = .ok (c, result)) :
    field_table_loop (key_length :: rest1) consumed length data
      = field_table_loop ((rest1.drop key_length).drop (c + 1))
          (consumed + 1 + key_length + c + 1) length
          (dinsert data (rest1.take key_length) result) := by
  rw [field_table_loop.eq_def, dif_pos hg]
  simp only [hev]

theorem field_table_loop_exit (rest : List Nat) (consumed length : Nat)
    (data : Dict) (hg : ¬ consumed < length) :
    field_table_loop rest consumed length data = .ok (4 + length, data) := by
  rw [field_table_loop.eq_def, dif_neg hg]

theorem boolean_not_null (v : List Nat) (c : Nat) : boolean v ≠ .ok (c, .null) := by
  unfold boolean
  cases v with
  | nil => simp
  | cons a rest => simp

theorem decimal_not_null (v : List Nat) (c : Nat) : decimal v ≠ .ok (c, .null) := by
  cases v with
  | nil => simp [decimal]
  | cons a rest =>
    rw [decimal]
    split <;> simp

theorem floating_point_not_null (v : List Nat) (c : Nat) :
    floating_point v ≠ .ok (c, .null) := by
  unfold floating_point
  split <;> simp

theorem long_int_not_null (v : List Nat) (c : Nat) : long_int v ≠ .ok (c, .null) := by
  unfold long_int
  split <;> simp

theorem long_long_int_not_null (v : List Nat) (c : Nat) :
    long_long_int v ≠ .ok (c, .null) := by
  unfold long_long_int
  split <;> simp

theorem long_string_not_null (v : List Nat) (c : Nat) :
    long_string v ≠ .ok (c, .null) := by
  unfold long_string
  split <;> simp

theorem short_int_not_null (v : List Nat) (c : Nat) : short_int v ≠ .ok (c, .null) := by
  unfold short_int
  split <;> simp

theorem short_string_not_null (v : List Nat) (c : Nat) :
    short_string v ≠ .ok (c, .null) := by
  unfold short_string
  cases v with
  | nil => simp
  | cons a rest => simp

theorem timestamp_not_null (v : List Nat) (c : Nat) : timestamp v ≠ .ok (c, .null) := by
  unfold timestamp
  split <;> simp

/-- C1: a field-table buffer made of a 4-byte big-endian region length
over a well-formed entry region of exactly that many bytes decodes to
consumed count `4 + L` and the mapping obtained by inserting each
`(key, value)` pair in wire order; insertion overwrites, so a later
duplicate key wins (second conjunct). -/
theorem c1_field_table_decode (a b c d : Nat) (region : List Nat)
    (ps : List (List Nat × Value))
    (h : EntriesOk region ps) (hlen : be [a, b, c, d] = region.length) :
    field_table (a :: b :: c :: d :: region)
      = .ok (4 + region.length, insertAll dempty ps) ∧
    ∀ (d0 : Dict) (k : List Nat) (v1 v2 : Value),
      insertAll d0 [(k, v1), (k, v2)] = dinsert d0 k v2 := by
  constructor
  · have h4 : 4 ≤ (a :: b :: c :: d :: region).length := by simp
    rw [field_table, dif_pos h4,
      show (a :: b :: c :: d :: region).drop 4 = region from rfl,
      show (a :: b :: c :: d :: region).take 4 = [a, b, c, d] from rfl, hlen]
    exact field_table_loop_ok h 0 region.length dempty (by omega)
  · intro d0 k v1 v2
    funext k2
    simp only [insertAll, List.foldl_cons, List.foldl_nil, dinsert]
    by_cases hk : k2 = k <;> simp [hk]

/-- C1 witness: region length 0 decodes to `(4, {})`. -/
theorem c1_witness :
    EntriesOk [] [] ∧ be [0, 0, 0, 0] = List.length ([] : List Nat) ∧
    field_table [0, 0, 0, 0] = .ok (4, dempty) :=
  ⟨EntriesOk.nil, rfl, (c1_field_table_decode 0 0 0 0 [] [] EntriesOk.nil rfl).1⟩

/-- C2: a field-array buffer made of a 4-byte big-endian region length
over a well-formed element region of exactly that many bytes decodes to
consumed count `4 + L` and the elements in wire order, one output element
per encoded element. -/
theorem c2_field_array_decode (a b c d : Nat) (region : List Nat) (vs : List Value)
    (h : ElemsOk region vs) (hlen : be [a, b, c, d] = region.length) :
    field_array (a :: b :: c :: d :: region) = .ok (4 + region.length, vs) := by
  have h4 : 4 ≤ (a :: b :: c :: d :: region).length := by simp
  rw [field_array, dif_pos h4,
    show (a :: b :: c :: d :: region).drop 4 = region from rfl,
    show (a :: b :: c :: d :: region).take 4 = [a, b, c, d] from rfl, hlen]
  simpa using field_array_loop_ok h 0 region.length [] (by omega)

/-- C2 witness: an array region holding two short-text elements decodes
to an ordered two-element sequence with consumed count `4 + L`. -/
theorem c2_witness :
    ElemsOk [115, 1, 104, 115, 1, 105] [.str [104], .str [105]] ∧
    field_array [0, 0, 0, 6, 115, 1, 104, 115, 1, 105]
      = .ok (10, [.str [104], .str [105]]) := by
  have h2 : ElemsOk [115, 1, 105] [.str [105]] := by
    have := ElemsOk.cons [115, 1, 105] [] (.str [105]) [] (by simp)
      (by simp [embedded_value, short_string]) ElemsOk.nil
    simpa using this
  have h1 : ElemsOk [115, 1, 104, 115, 1, 105] [.str [104], .str [105]] := by
    have := ElemsOk.cons [115, 1, 104] [115, 1, 105] (.str [104]) [.str [105]]
      (by simp) (by simp [embedded_value, short_string]) h2
    simpa using this
  exact ⟨h1, by simpa using c2_field_array_decode 0 0 0 6 _ _ h1 rfl⟩

/-- C10: whenever the field-table decoder returns without error, the
reported consumed count is exactly 4 plus the big-endian region length
read from the first 4 bytes, whatever the entry decodes actually did. -/
theorem c10_field_table_consumed (value : List Nat) (c : Nat) (d : Dict)
    (h : field_table value = .ok (c, d)) :
    c = 4 + be (value.take 4) := by
  rw [field_table] at h
  by_cases h4 : 4 ≤ value.length
  · rw [dif_pos h4] at h
    exact field_table_loop_count_aux (value.drop 4).length _ _ _ _ _ _ le_rfl h
  · rw [dif_neg h4] at h
    simp at h

/-- C10 witness. -/
theorem c10_witness :
    field_table [0, 0, 0, 0] = .ok (4, dempty) ∧
    (4 : Nat) = 4 + be (List.take 4 [0, 0, 0, 0]) := by
  have h : field_table [0, 0, 0, 0] = .ok (4, dempty) := by
    simp [field_table, field_table_loop, be, dempty]
  exact ⟨h, c10_field_table_consumed _ _ _ h⟩

/-- C8: the self-describing decoder returns `(0, null)` in exactly two
cases — the empty buffer and a buffer whose first byte is NUL — and in
those cases no error is raised and no bytes are consumed. -/
theorem c8_embedded_null (value : List Nat) :
    embedded_value value = .ok (0, .null) ↔ value = [] ∨ ∃ w, value = 0 :: w := by
  cases value with
  | nil => simp [embedded_value]
  | cons b w =>
    rw [embedded_value]
    by_cases h1 : b = 65
    · rw [if_pos h1]
      rcases hfa : field_array w with e | ⟨c, xs⟩ <;> simp [h1, hfa]
    rw [if_neg h1]
    by_cases h2 : b = 68
    · rw [if_pos h2]
      simp [h2, decimal_not_null]
    rw [if_neg h2]
    by_cases h3 : b = 102
    · rw [if_pos h3]
      simp [h3, floating_point_not_null]
    rw [if_neg h3]
    by_cases h4 : b = 70
    · rw [if_pos h4]
      rcases hft : field_table w with e | ⟨c, d⟩ <;> simp [h4, hft]
    rw [if_neg h4]
    by_cases h5 : b = 73
    · rw [if_pos h5]
      simp [h5, long_int_not_null]
    rw [if_neg h5]
    by_cases h6 : b = 76
    · rw [if_pos h6]
      simp [h6, long_long_int_not_null]
    rw [if_neg h6]
    by_cases h7 : b = 116
    · rw [if_pos h7]
      simp [h7, boolean_not_null]
    rw [if_neg h7]
    by_cases h8 : b = 84
    · rw [if_pos h8]
      simp [h8, timestamp_not_null]
    rw [if_neg h8]
    by_cases h9 : b = 115
    · rw [if_pos h9]
      simp [h9, short_string_not_null]
    rw [if_neg h9]
    by_cases h10 : b = 83
    · rw [if_pos h10]
      simp [h10, long_string_not_null]
    rw [if_neg h10]
    by_cases h11 : b = 85
    · rw [if_pos h11]
      simp [h11, short_int_not_null]
    rw [if_neg h11]
    by_cases h12 : b = 0
    · rw [if_pos h12]
      subst h12
      simp
    rw [if_neg h12]
    simp [h12]

/-- C8 witness: a single NUL byte yields `(0, null)` with no error. -/
theorem c8_witness : embedded_value [0] = .ok (0, .null) :=
  (c8_embedded_null [0]).mpr (Or.inr ⟨[], rfl⟩)

/-- C5: on any buffer of 5 or more bytes the decimal decoder consumes
exactly 5 bytes and returns the exact rational
`mantissa / 10 ^ scale` (scale from byte 0, big-endian mantissa from
bytes 1..4); in particular scale 2 with mantissa 12345 gives exactly
`123.45 = 12345 / 100`. -/
theorem c5_decimal_exact (b0 b1 b2 b3 b4 : Nat) (rest : List Nat) :
    decimal (b0 :: b1 :: b2 :: b3 :: b4 :: rest)
      = .ok (5, .dec ((be [b1, b2, b3, b4] : ℚ) / 10 ^ b0)) ∧
    decimal [2, 0, 0, 48, 57] = .ok (5, .dec ((12345 : ℚ) / 100)) := by
  have key : ∀ b0 b1 b2 b3 b4 : Nat, ∀ rest : List Nat,
      decimal (b0 :: b1 :: b2 :: b3 :: b4 :: rest)
        = .ok (5, .dec ((be [b1, b2, b3, b4] : ℚ) / 10 ^ b0)) := by
    intro b0 b1 b2 b3 b4 rest
    rw [decimal, if_pos (by simp)]
    have htake : (b1 :: b2 :: b3 :: b4 :: rest).take 4 = [b1, b2, b3, b4] := rfl
    rw [htake, zpow_neg, zpow_natCast, ← div_eq_mul_inv]
  refine ⟨key b0 b1 b2 b3 b4 rest, ?_⟩
  rw [key 2 0 0 48 57 []]
  norm_num [be]

/-- C6: short text decodes a 1-byte length `n` followed by `n` bytes to
`(n + 1, bytes)`, long text decodes a 4-byte big-endian length `n`
followed by `n` bytes to `(n + 4, bytes)`; in particular
`[0x05, 'h', 'e', 'l', 'l', 'o']` gives `(6, "hello")` and a long text
with length prefix 0 gives `(4, "")`. -/
theorem c6_text_decode (body rest : List Nat) (a b c d : Nat)
    (h : be [a, b, c, d] = body.length) :
    short_string (body.length :: (body ++ rest)) = .ok (body.length + 1, .str body) ∧
    long_string (a :: b :: c :: d :: (body ++ rest)) = .ok (body.length + 4, .str body) ∧
    short_string [5, 104, 101, 108, 108, 111] = .ok (6, .str [104, 101, 108, 108, 111]) ∧
    long_string [0, 0, 0, 0] = .ok (4, .str []) := by
  refine ⟨?_, ?_, by simp [short_string], by simp [long_string, be]⟩
  · rw [short_string, List.take_left]
  · rw [long_string, if_pos (by simp)]
    have htake : (a :: b :: c :: d :: (body ++ rest)).take 4 = [a, b, c, d] := rfl
    have hdrop : (a :: b :: c :: d :: (body ++ rest)).drop 4 = body ++ rest := rfl
    simp only [htake, hdrop, h, List.take_left]

/-- C6 witness. -/
theorem c6_witness :
    be [0, 0, 0, 2] = List.length [104, 105] ∧
    long_string [0, 0, 0, 2, 104, 105] = .ok (6, .str [104, 105]) := by
  have h : be [0, 0, 0, 2] = List.length [104, 105] := rfl
  exact ⟨h, by simpa using (c6_text_decode [104, 105] [] 0 0 0 2 h).2.1⟩

/-- C3 counterexample: `long_string` on a buffer that declares 2 content
bytes but holds only 1 does not fail — it silently truncates and reports
a consumed count (6) past the buffer end (5 bytes), so the claim that
every short buffer fails with `BufferUnderflow` is false on the code. -/
theorem c3_counterexample : long_string [0, 0, 0, 2, 104] = .ok (6, .str [104]) := by
  simp [long_string, be]

/-- C3 (amended): the fixed-width decoders and the length prefixes do
fail on underflow (conjuncts 1-10), but once a text decoder has its full
length prefix it never checks the declared body length: it returns the
declared consumed count with whatever bytes are present (last two
conjuncts, the silent-truncation behavior). -/
theorem c3_underflow (v : List Nat) (a b c d : Nat) (body : List Nat) :
    (v.length < 1 → boolean v = .error .underflow) ∧
    (v.length < 1 → octet v = .error .underflow) ∧
    (v.length < 2 → short_int v = .error .underflow) ∧
    (v.length < 4 → long_int v = .error .underflow) ∧
    (v.length < 4 → floating_point v = .error .underflow) ∧
    (v.length < 4 → long_string v = .error .underflow) ∧
    (v.length < 5 → decimal v = .error .underflow) ∧
    (v.length < 8 → long_long_int v = .error .underflow) ∧
    (v.length < 8 → timestamp v = .error .underflow) ∧
    (v.length < 1 → short_string v = .error .underflow) ∧
    (body.length < be [a, b, c, d] →
      long_string (a :: b :: c :: d :: body)
        = .ok (be [a, b, c, d] + 4, .str body)) ∧
    (body.length < a →
      short_string (a :: body) = .ok (a + 1, .str body)) := by
  refine ⟨?_, ?_, ?_, ?_, ?_, ?_, ?_, ?_, ?_, ?_, ?_, ?_⟩
  · intro h
    cases v with
    | nil => rfl
    | cons x xs => simp at h
  · intro h
    cases v with
    | nil => rfl
    | cons x xs => simp at h
  · intro h
    rw [short_int, if_neg (by omega)]
  · intro h
    rw [long_int, if_neg (by omega)]
  · intro h
    rw [floating_point, if_neg (by omega)]
  · intro h
    rw [long_string, if_neg (by omega)]
  · intro h
    cases v with
    | nil => rfl
    | cons x xs =>
      rw [decimal, if_neg (by simp at h; omega)]
  · intro h
    rw [long_long_int, if_neg (by omega)]
  · intro h
    rw [timestamp, if_neg (by omega)]
  · intro h
    cases v with
    | nil => rfl
    | cons x xs => simp at h
  · intro h
    rw [long_string, if_pos (by simp)]
    have htake : (a :: b :: c :: d :: body).take 4 = [a, b, c, d] := rfl
    have hdrop : (a :: b :: c :: d :: body).drop 4 = body := rfl
    simp only [htake, hdrop]
    rw [List.take_of_length_le (by omega)]
  · intro h
    rw [short_string, List.take_of_length_le (by omega)]

/-- C3 witness. -/
theorem c3_witness :
    List.length ([] : List Nat) < 4 ∧ long_int [] = .error .underflow ∧
    List.length [104] < be [0, 0, 0, 2] ∧
    long_string [0, 0, 0, 2, 104] = .ok (be [0, 0, 0, 2] + 4, .str [104]) := by
  refine ⟨by decide, ?_, by decide, ?_⟩
  · exact (c3_underflow [] 0 0 0 2 [104]).2.2.2.1 (by decide)
  · exact (c3_underflow [] 0 0 0 2 [104]).2.2.2.2.2.2.2.2.2.2.1 (by decide)

/-- C4 counterexample: region length 1 with a boolean element whose
payload byte lies outside the declared region; the nested decode reads
past the boundary and the decoder returns `(6, [true])` instead of
failing — no truncation error exists in the code. -/
theorem c4_counterexample :
    field_array [0, 0, 0, 1, 116, 1] = .ok (6, [.bool true]) := by
  simp [field_array, field_array_loop, embedded_value, boolean, be]

/-- C4 (amended): the compound decoders perform no boundary check.  When
a nested decode consumes bytes past the declared region end they still
return a result: the field array reports the overshot offset (here 6 for
a declared region of 1) and the field table reports `4 + L` (here 6 for
`L = 2` even though the entry consumed through byte 7). -/
theorem c4_no_boundary_check (k : Nat) (rest : List Nat) :
    field_array (0 :: 0 :: 0 :: 1 :: 116 :: k :: rest) = .ok (6, [.bool (k != 0)]) ∧
    field_table (0 :: 0 :: 0 :: 2 :: 0 :: 116 :: k :: rest)
      = .ok (6, dinsert dempty [] (.bool (k != 0))) := by
  constructor
  · rw [field_array, dif_pos (by simp)]
    rw [show (0 :: 0 :: 0 :: 1 :: 116 :: k :: rest).take 4 = [0, 0, 0, 1] from rfl,
      show (0 :: 0 :: 0 :: 1 :: 116 :: k :: rest).drop 4 = 116 :: k :: rest from rfl]
    rw [field_array_loop_step _ _ _ _ 1 (.bool (k != 0)) (by simp [be])
      (by simp [embedded_value, boolean])]
    rw [field_array_loop_exit _ _ _ _ (by simp [be])]
    simp
  · rw [field_table, dif_pos (by simp)]
    rw [show (0 :: 0 :: 0 :: 2 :: 0 :: 116 :: k :: rest).take 4 = [0, 0, 0, 2] from rfl,
      show (0 :: 0 :: 0 :: 2 :: 0 :: 116 :: k :: rest).drop 4 = 0 :: 116 :: k :: rest from rfl]
    rw [field_table_loop_step 0 (116 :: k :: rest) 0 _ dempty 1 (.bool (k != 0))
      (by simp [be]) (by simp [embedded_value, boolean])]
    rw [field_table_loop_exit _ _ _ _ (by simp [be])]
    simp [be]

/-- C7 counterexample: the same unknown tag byte 33 sitting at offset 4
in one buffer and at offset 6 in another produces the *identical* error
value, so the reported error cannot carry the tag's offset — the source
formats only `value[0]` into the `ValueError`. -/
theorem c7_counterexample :
    field_array [0, 0, 0, 1, 33] = .error (.unknownType 33) ∧
    field_array [0, 0, 0, 3, 116, 1, 33] = .error (.unknownType 33) := by
  constructor
  · simp [field_array, field_array_loop, embedded_value, be]
  · simp [field_array, field_array_loop, embedded_value, boolean, be]

/-- C7 (amended): a buffer starting with a byte outside the recognized
tag set `{A, D, f, F, I, L, t, T, s, S, U, NUL}` makes the
self-describing decoder fail with an unknown-type error that reports the
offending tag byte (and only the byte: no offset is included). -/
theorem c7_unknown_tag (b : Nat) (rest : List Nat)
    (h : b ∉ ([65, 68, 102, 70, 73, 76, 116, 84, 115, 83, 85, 0] : List Nat)) :
    embedded_value (b :: rest) = .error (.unknownType b) := by
  simp only [List.mem_cons, List.not_mem_nil, or_false, not_or] at h
  obtain ⟨h1, h2, h3, h4, h5, h6, h7, h8, h9, h10, h11, h12⟩ := h
  rw [embedded_value, if_neg h1, if_neg h2, if_neg h3, if_neg h4, if_neg h5,
    if_neg h6, if_neg h7, if_neg h8, if_neg h9, if_neg h10, if_neg h11, if_neg h12]

/-- C7 witness. -/
theorem c7_witness :
    (33 : Nat) ∉ ([65, 68, 102, 70, 73, 76, 116, 84, 115, 83, 85, 0] : List Nat) ∧
    embedded_value [33] = .error (.unknownType 33) :=
  ⟨by decide, c7_unknown_tag 33 [] (by decide)⟩

/-- C9: the typed dispatcher routes each of the ten recognized type
names to the matching decoder and returns its result, fails with an
unknown-type error on every other name, and consults the bit position
only for the name `bit`. -/
theorem c9_by_type (v : List Nat) (name : String) (o o2 : Nat) :
    by_type v "bit" o = bit v o ∧
    by_type v "boolean" o = boolean v ∧
    by_type v "long" o = long_int v ∧
    by_type v "longlong" o = long_long_int v ∧
    by_type v "longstr" o = long_string v ∧
    by_type v "octet" o = octet v ∧
    by_type v "short" o = short_int v ∧
    by_type v "shortstr" o = short_string v ∧
    by_type v "table" o = (match field_table v with
      | .ok (c, d) => .ok (c, Value.table d)
      | .error e => .error e) ∧
    by_type v "timestamp" o = timestamp v ∧
    (name ∉ (["bit", "boolean", "long", "longlong", "longstr", "octet", "short",
        "shortstr", "table", "timestamp"] : List String) →
      by_type v name o = .error (.unknownDataType v)) ∧
    (name ≠ "bit" → by_type v name o = by_type v name o2) := by
  refine ⟨by simp [by_type], by simp [by_type], by simp [by_type], by simp [by_type],
    by simp [by_type], by simp [by_type], by simp [by_type], by simp [by_type],
    by simp [by_type], by simp [by_type], ?_, ?_⟩
  · intro h
    simp only [List.mem_cons, List.not_mem_nil, or_false, not_or] at h
    obtain ⟨h1, h2, h3, h4, h5, h6, h7, h8, h9, h10⟩ := h
    rw [by_type, if_neg h1, if_neg h2, if_neg h3, if_neg h4, if_neg h5,
      if_neg h6, if_neg h7, if_neg h8, if_neg h9, if_neg h10]
  · intro h
    rw [by_type, by_type, if_neg h, if_neg h]

/-- C9 witness. -/
theorem c9_witness :
    ("frob" ∉ (["bit", "boolean", "long", "longlong", "longstr", "octet", "short",
        "shortstr", "table", "timestamp"] : List String)) ∧
    by_type [] "frob" 0 = .error (.unknownDataType []) ∧
    ("frob" ≠ "bit") ∧ by_type [] "frob" 0 = by_type [] "frob" 1 := by
  refine ⟨by decide, ?_, by decide, ?_⟩
  · exact (c9_by_type [] "frob" 0 1).2.2.2.2.2.2.2.2.2.2.1 (by decide)
  · exact (c9_by_type [] "frob" 0 1).2.2.2.2.2.2.2.2.2.2.2 (by decide)

end Pika
